import Mathlib

/- Shallow embedding of the fstab crate (src/lib.rs): the `FsEntry` model, the
line parser `FsTab::parse_entries`, the writer `FsTab::save_fstab`, and the
mutation operations `add_entry`, `add_entries`, `remove_entry`, with proofs of
the specified properties.

Rust `String`/`str` values are modelled as `List Char` (`Str`); `PathBuf`
round-trips its string through `PathBuf::from` and `Display`, so `mountpoint`
is also a string. `u16` is modelled as `Nat`, with the 0-65535 bound enforced
exactly where the code enforces it (`u16::from_str`). -/

namespace Fstab

/-- Rust strings modelled as lists of characters. -/
abbrev Str := List Char

/-- Decidable equality of `Except` results, to evaluate concrete parses. -/
instance {ε α : Type} [DecidableEq ε] [DecidableEq α] :
    DecidableEq (Except ε α) := fun x y =>
  match x, y with
  | .ok a, .ok b =>
    if h : a = b then .isTrue (by rw [h])
    else .isFalse (fun hc => h (Except.ok.inj hc))
  | .error a, .error b =>
    if h : a = b then .isTrue (by rw [h])
    else .isFalse (fun hc => h (Except.error.inj hc))
  | .ok _, .error _ => .isFalse (fun hc => Except.noConfusion hc)
  | .error _, .ok _ => .isFalse (fun hc => Except.noConfusion hc)

/-- The Unicode White_Space property, as used by Rust `char::is_whitespace`
and hence by `str::split_whitespace`. -/
def isRustWs (c : Char) : Bool :=
  decide ((0x09 ≤ c.toNat ∧ c.toNat ≤ 0x0D) ∨ c.toNat = 0x20 ∨ c.toNat = 0x85 ∨
    c.toNat = 0xA0 ∨ c.toNat = 0x1680 ∨
    (0x2000 ≤ c.toNat ∧ c.toNat ≤ 0x200A) ∨ c.toNat = 0x2028 ∨
    c.toNat = 0x2029 ∨ c.toNat = 0x202F ∨ c.toNat = 0x205F ∨ c.toNat = 0x3000)

/-- Rust `str::split` for a single-character separator: always yields at least
one (possibly empty) segment. -/
def splitOnChar (sep : Char) : Str → List Str
  | [] => [[]]
  | c :: rest =>
    if c = sep then [] :: splitOnChar sep rest
    else
      match splitOnChar sep rest with
      | [] => [[c]]
      | s :: ss => (c :: s) :: ss

/-- Rust slice `join` for a single-character separator (used with `,` on the
mount options). -/
def joinSep (sep : Char) : List Str → Str
  | [] => []
  | [s] => s
  | s :: rest => s ++ sep :: joinSep sep rest

/-- Strip one trailing carriage return, as Rust `str::lines` does on each
newline-terminated segment. -/
def stripCR (s : Str) : Str :=
  if s.getLast? = some '\r' then s.dropLast else s

/-- Rust `str::lines`: split on newlines; a carriage return directly before a
newline is stripped; a final empty segment (text ending in a newline) is
dropped; a final unterminated segment keeps any trailing carriage return. -/
def rustLines (s : Str) : List Str :=
  (splitOnChar '\n' s).dropLast.map stripCR ++
    match (splitOnChar '\n' s).getLast? with
    | some [] => []
    | some l => [l]
    | none => []

/-- Helper for `splitWhitespace`; `acc` is the current word, reversed. -/
def splitWsAux : Str → Str → List Str
  | [], acc => if acc = [] then [] else [acc.reverse]
  | c :: rest, acc =>
    if isRustWs c then
      if acc = [] then splitWsAux rest [] else acc.reverse :: splitWsAux rest []
    else splitWsAux rest (c :: acc)

/-- Rust `str::split_whitespace`: the nonempty words between runs of
whitespace. -/
def splitWhitespace (s : Str) : List Str :=
  splitWsAux s []

/-- The decimal digit character for a value below ten. -/
def digitChar (d : Nat) : Char :=
  if d = 0 then '0' else if d = 1 then '1' else if d = 2 then '2'
  else if d = 3 then '3' else if d = 4 then '4' else if d = 5 then '5'
  else if d = 6 then '6' else if d = 7 then '7' else if d = 8 then '8' else '9'

/-- Fuel-driven digit loop for decimal printing; the fuel always suffices
when it exceeds the number printed. -/
def natToStrAux : Nat → Nat → Str
  | 0, _ => []
  | fuel + 1, n =>
    if n < 10 then [digitChar n]
    else natToStrAux fuel (n / 10) ++ [digitChar (n % 10)]

/-- Decimal printing of a natural number (Rust `Display` for integers, used by
`save_fstab` on `fsck_order`). -/
def natToStr (n : Nat) : Str := natToStrAux (n + 1) n

/-- Numeric value of a decimal digit character. -/
def digitVal (c : Char) : Nat := c.toNat - 48

/-- Value of a string of decimal digits, most significant first. -/
def decodeDec (s : Str) : Nat := s.foldl (fun a c => 10 * a + digitVal c) 0

/-- ASCII decimal digit test, as Rust `char::to_digit(10)` succeeds exactly on
the characters `0` through `9`. -/
def isDigitChar (c : Char) : Bool :=
  decide (48 ≤ c.toNat ∧ c.toNat ≤ 57)

/-- Strip one leading plus sign, as Rust unsigned-integer `from_str` does. -/
def stripPlus : Str → Str
  | [] => []
  | c :: rest => if c = '+' then rest else c :: rest

/-- Rust `u16::from_str`: an optional leading `+`, then one or more ASCII
digits whose value is at most 65535; anything else (empty input, a stray
sign, a non-digit, overflow) is an error, modelled as `none`. -/
def parseU16 (s : Str) : Option Nat :=
  if stripPlus s = [] then none
  else if (stripPlus s).all isDigitChar then
    if decodeDec (stripPlus s) ≤ 65535 then some (decodeDec (stripPlus s))
    else none
  else none

/-- One fstab record (`FsEntry` in src/lib.rs). -/
structure FsEntry where
  fs_spec : Str
  mountpoint : Str
  vfs_type : Str
  mount_options : List Str
  dump : Bool
  fsck_order : Nat
deriving DecidableEq, Repr

/-- The only parse error the code produces: `ErrorKind::InvalidInput` from a
failed `u16::from_str` on the sixth field. -/
inductive ParseError where
  | invalidInput
deriving DecidableEq, Repr

/-- Outcome of one line of the loop in `FsTab::parse_entries`, following the
order of its checks: comment marker first, then field count, then the numeric
sixth field. -/
inductive LineResult where
  | comment
  | skip
  | fatal
  | entry (e : FsEntry)
deriving DecidableEq, Repr

/-- One iteration of the loop body of `FsTab::parse_entries`. -/
def classifyLine (l : Str) : LineResult :=
  if l.head? = some '#' then .comment
  else
    match splitWhitespace l with
    | [a, b, c, d, e, f] =>
      match parseU16 f with
      | none => .fatal
      | some fsck =>
        .entry { fs_spec := a, mountpoint := b, vfs_type := c,
                 mount_options := splitOnChar ',' d,
                 dump := if e = ['0'] then false else true,
                 fsck_order := fsck }
    | _ => .skip

/-- The loop of `FsTab::parse_entries` over the lines of the file: comment and
wrong-width lines are skipped, a bad sixth field aborts with the input error,
surviving entries are accumulated in order. -/
def parseLines : List Str → Except ParseError (List FsEntry)
  | [] => .ok []
  | l :: rest =>
    match classifyLine l with
    | .comment => parseLines rest
    | .skip => parseLines rest
    | .fatal => .error .invalidInput
    | .entry e => (parseLines rest).map (fun es => e :: es)

/-- The whole of `FsTab::parse_entries` on the full file content (the file is read into a
string and processed line by line). -/
def parse_entries (contents : Str) : Except ParseError (List FsEntry) :=
  parseLines (rustLines contents)

/-- The line `FsTab::save_fstab` writes for one entry, without the trailing
newline: the six fields separated by single spaces, options comma-joined,
`dump` encoded `1`/`0`, `fsck_order` in decimal. -/
def entryLine (e : FsEntry) : Str :=
  e.fs_spec ++ (' ' :: (e.mountpoint ++ (' ' :: (e.vfs_type ++ (' ' ::
    (joinSep ',' e.mount_options ++ (' ' ::
      ((if e.dump then ['1'] else ['0']) ++
        (' ' :: natToStr e.fsck_order)))))))))

/-- The writer `FsTab::save_fstab`: the full file content written for a table, one
newline-terminated line per entry, in table order. -/
def save_fstab : List FsEntry → Str
  | [] => []
  | e :: rest => entryLine e ++ '\n' :: save_fstab rest

/-- Outcome of one mutating operation: the table as left in the backing store,
the returned value, and how many times the store was rewritten. -/
structure OpResult (α : Type) where
  table : List FsEntry
  ret : α
  writes : Nat
deriving DecidableEq, Repr

/-- The upsert `FsTab::add_entry`: find an entry equal (all six fields) to the new one,
remove it if present, push the new entry at the end, rewrite the store; the
result is `true` iff no equal entry existed. -/
def add_entry (table : List FsEntry) (entry : FsEntry) : OpResult Bool :=
  match table.findIdx? (fun e => decide (e = entry)) with
  | some pos => ⟨(table.eraseIdx pos) ++ [entry], false, 1⟩
  | none => ⟨table ++ [entry], true, 1⟩

/-- One step of the loop in `FsTab::add_entries`: if the working table
contains the new entry, remove it at its found position and push it at the
end, otherwise just push it. -/
def addEntriesStep (acc : List FsEntry) (n : FsEntry) : List FsEntry :=
  if n ∈ acc then
    (acc.eraseIdx (acc.findIdx (fun e => decide (e = n)))) ++ [n]
  else acc ++ [n]

/-- The bulk upsert `FsTab::add_entries`: fold the upsert step over the incoming entries on a
single working copy of the table, then write the store once. -/
def add_entries (table : List FsEntry) (news : List FsEntry) : OpResult Unit :=
  ⟨news.foldl addEntriesStep table, (), 1⟩

/-- The removal `FsTab::remove_entry`: remove the first entry whose `fs_spec` equals the
given spec and rewrite the store (returning `true`); with no match the store
is not written and the result is `false`. -/
def remove_entry (table : List FsEntry) (spec : Str) : OpResult Bool :=
  match table.findIdx? (fun e => decide (e.fs_spec = spec)) with
  | some pos => ⟨table.eraseIdx pos, true, 1⟩
  | none => ⟨table, false, 0⟩

/-- A field token that survives the writer/parser round trip: nonempty and
free of whitespace. -/
def validField (s : Str) : Prop := s ≠ [] ∧ ∀ c ∈ s, isRustWs c = false

instance (s : Str) : Decidable (validField s) := by
  unfold validField; infer_instance

/-- Field values the writer serialises to a line the parser decodes back to
the same entry: token fields, the first one not opening a comment, options
free of whitespace and commas with a nonempty comma-join, and `fsck_order` in
`u16` range. -/
def ValidEntry (e : FsEntry) : Prop :=
  validField e.fs_spec ∧ e.fs_spec.head? ≠ some '#' ∧
  validField e.mountpoint ∧ validField e.vfs_type ∧
  (∀ o ∈ e.mount_options, ∀ c ∈ o, isRustWs c = false ∧ c ≠ ',') ∧
  joinSep ',' e.mount_options ≠ [] ∧
  e.fsck_order ≤ 65535

instance (e : FsEntry) : Decidable (ValidEntry e) := by
  unfold ValidEntry; infer_instance

/-- Concrete entry used in witnesses. -/
def entA : FsEntry :=
  { fs_spec := "/dev/sda1".toList, mountpoint := "/".toList,
    vfs_type := "ext4".toList,
    mount_options := ["rw".toList, "noatime".toList],
    dump := false, fsck_order := 1 }

/-- Second concrete entry used in witnesses. -/
def entB : FsEntry :=
  { fs_spec := "UUID=be8a49b9".toList, mountpoint := "/mnt/raid".toList,
    vfs_type := "ext2".toList, mount_options := ["defaults".toList],
    dump := true, fsck_order := 65535 }

/-- Variant of `entA` sharing its `fs_spec` but differing in another field. -/
def entA2 : FsEntry :=
  { entA with mountpoint := "/other".toList }

/-- Entry with empty options but a whitespace-containing `fs_spec`: its
encoded line regains six tokens, refuting the unrestricted form of the
empty-options claim. -/
def entSpaced : FsEntry :=
  { fs_spec := "a b".toList, mountpoint := "/".toList,
    vfs_type := "ext4".toList, mount_options := [], dump := false,
    fsck_order := 1 }

/-- Entry with empty options and whitespace-free token fields. -/
def entC : FsEntry :=
  { fs_spec := "/dev/sdb1".toList, mountpoint := "/data".toList,
    vfs_type := "xfs".toList, mount_options := [], dump := false,
    fsck_order := 2 }

/-- The digit loop does not depend on the fuel, when sufficient. -/
theorem natToStrAux_fuel (f1 f2 n : Nat) (h1 : n < f1) (h2 : n < f2) :
    natToStrAux f1 n = natToStrAux f2 n := by
  induction n using Nat.strong_induction_on generalizing f1 f2 with
  | _ n ih =>
    cases f1 with
    | zero => omega
    | succ g1 =>
      cases f2 with
      | zero => omega
      | succ g2 =>
        simp only [natToStrAux]
        split
        · rfl
        · next h =>
          have hd : n / 10 < n := Nat.div_lt_self (by omega) (by omega)
          rw [ih (n / 10) hd g1 g2 (by omega) (by omega)]

/-- Recursive unfolding of decimal printing. -/
theorem natToStr_unfold (n : Nat) :
    natToStr n = if n < 10 then [digitChar n]
      else natToStr (n / 10) ++ [digitChar (n % 10)] := by
  unfold natToStr
  rw [show natToStrAux (n + 1) n =
    (if n < 10 then [digitChar n]
      else natToStrAux n (n / 10) ++ [digitChar (n % 10)]) from rfl]
  split
  · rfl
  · next h =>
    have hd : n / 10 < n := Nat.div_lt_self (by omega) (by omega)
    rw [natToStrAux_fuel n (n / 10 + 1) (n / 10) (by omega) (by omega)]

/-- A non-whitespace character differs from every whitespace character. -/
theorem ne_of_not_ws {c d : Char} (hc : isRustWs c = false)
    (hd : isRustWs d = true) : c ≠ d := by
  intro h; rw [h, hd] at hc; cases hc

/-- Decimal digit characters are not whitespace. -/
theorem isDigitChar_not_ws {c : Char} (h : isDigitChar c = true) :
    isRustWs c = false := by
  rw [isDigitChar, decide_eq_true_eq] at h
  rw [isRustWs, decide_eq_false_iff_not]
  omega

/-- Decimal digit characters are not the plus sign. -/
theorem isDigitChar_ne_plus {c : Char} (h : isDigitChar c = true) : c ≠ '+' := by
  intro he; subst he; exact absurd h (by decide)

/-- Splitting always yields at least one segment. -/
theorem splitOnChar_ne_nil (sep : Char) (s : Str) : splitOnChar sep s ≠ [] := by
  cases s with
  | nil => simp [splitOnChar]
  | cons c rest =>
    simp only [splitOnChar]
    split
    · simp
    · split <;> simp

/-- Splitting a string free of the separator yields that one segment. -/
theorem splitOnChar_not_mem {sep : Char} {l : Str} (h : sep ∉ l) :
    splitOnChar sep l = [l] := by
  induction l with
  | nil => rfl
  | cons c rest ih =>
    have hc : ¬ c = sep := fun he => h (by rw [he]; exact List.mem_cons_self sep rest)
    have hr : sep ∉ rest := fun hm => h (List.mem_cons_of_mem _ hm)
    simp only [splitOnChar, if_neg hc, ih hr]

/-- Splitting past a separator-free prefix peels off that prefix. -/
theorem splitOnChar_append {sep : Char} {l : Str} (h : sep ∉ l) (rest : Str) :
    splitOnChar sep (l ++ sep :: rest) = l :: splitOnChar sep rest := by
  induction l with
  | nil => simp [splitOnChar]
  | cons c t ih =>
    have hc : ¬ c = sep := fun he => h (by rw [he]; exact List.mem_cons_self sep t)
    have ht : sep ∉ t := fun hm => h (List.mem_cons_of_mem _ hm)
    simp only [List.cons_append, splitOnChar, if_neg hc, List.append_eq, ih ht]

/-- Every character of a comma-join is the separator or from one of the
joined strings. -/
theorem mem_joinSep {sep c : Char} {l : List Str} (h : c ∈ joinSep sep l) :
    c = sep ∨ ∃ o ∈ l, c ∈ o := by
  induction l with
  | nil => simp [joinSep] at h
  | cons o rest ih =>
    cases rest with
    | nil =>
      right
      exact ⟨o, by simp, by simpa [joinSep] using h⟩
    | cons o2 r2 =>
      rw [show joinSep sep (o :: o2 :: r2) = o ++ sep :: joinSep sep (o2 :: r2)
        from rfl] at h
      rcases List.mem_append.mp h with h1 | h2
      · exact Or.inr ⟨o, by simp, h1⟩
      · rcases List.mem_cons.mp h2 with rfl | h3
        · exact Or.inl rfl
        · rcases ih h3 with h4 | ⟨o', ho', hc⟩
          · exact Or.inl h4
          · exact Or.inr ⟨o', by simp [ho'], hc⟩

/-- Splitting a join of separator-free strings recovers them. -/
theorem splitOnChar_joinSep {sep : Char} {l : List Str} (hne : l ≠ [])
    (h : ∀ o ∈ l, sep ∉ o) :
    splitOnChar sep (joinSep sep l) = l := by
  induction l with
  | nil => cases hne rfl
  | cons o rest ih =>
    cases rest with
    | nil => exact splitOnChar_not_mem (h o (by simp))
    | cons o2 r2 =>
      rw [show joinSep sep (o :: o2 :: r2) = o ++ sep :: joinSep sep (o2 :: r2)
        from rfl,
        splitOnChar_append (h o (by simp)),
        ih (by simp) (fun o' ho' => h o' (by simp [ho']))]

/-- The empty text has no lines. -/
theorem rustLines_nil : rustLines [] = [] := rfl

/-- Peeling one newline-terminated, newline-free line off the front of the
text. -/
theorem rustLines_append {l : Str} (h : '\n' ∉ l) (s : Str) :
    rustLines (l ++ '\n' :: s) = stripCR l :: rustLines s := by
  unfold rustLines
  rw [splitOnChar_append h]
  have hne := splitOnChar_ne_nil '\n' s
  cases hseg : splitOnChar '\n' s with
  | nil => exact absurd hseg hne
  | cons s0 ss =>
    simp [List.dropLast_cons₂, List.getLast?_cons_cons]

/-- Words free of whitespace are accumulated by `splitWsAux`. -/
theorem splitWsAux_chunk {w : Str} (hw : ∀ c ∈ w, isRustWs c = false) :
    ∀ (rest acc : Str),
      splitWsAux (w ++ rest) acc = splitWsAux rest (w.reverse ++ acc) := by
  induction w with
  | nil => intro rest acc; simp
  | cons c t ih =>
    intro rest acc
    have hc : isRustWs c = false := hw c (by simp)
    simp only [List.cons_append, splitWsAux, hc, Bool.false_eq_true,
      if_false, List.append_eq]
    rw [ih (fun x hx => hw x (by simp [hx])) rest (c :: acc)]
    simp

/-- A leading whitespace character is dropped by the tokenizer. -/
theorem splitWhitespace_ws_cons {c : Char} (hc : isRustWs c = true)
    (rest : Str) : splitWhitespace (c :: rest) = splitWhitespace rest := by
  simp [splitWhitespace, splitWsAux, hc]

/-- A whitespace-free word before a space becomes one token. -/
theorem splitWhitespace_word_cons {w : Str} (hne : w ≠ [])
    (hw : ∀ c ∈ w, isRustWs c = false) (rest : Str) :
    splitWhitespace (w ++ ' ' :: rest) = w :: splitWhitespace rest := by
  unfold splitWhitespace
  rw [splitWsAux_chunk hw]
  rw [List.append_nil]
  have hsp : isRustWs ' ' = true := by decide
  simp [splitWsAux, hsp, hne]

/-- A nonempty whitespace-free word is one token. -/
theorem splitWhitespace_word {w : Str} (hne : w ≠ [])
    (hw : ∀ c ∈ w, isRustWs c = false) : splitWhitespace w = [w] := by
  unfold splitWhitespace
  have h := splitWsAux_chunk hw [] []
  rw [List.append_nil] at h
  rw [h]
  simp [splitWsAux, hne]

/-- Reading back the digit character of a value below ten. -/
theorem digitVal_digitChar {d : Nat} (h : d < 10) :
    digitVal (digitChar d) = d := by
  interval_cases d <;> decide

/-- Printing a digit yields a decimal digit character. -/
theorem isDigitChar_digitChar {d : Nat} (h : d < 10) :
    isDigitChar (digitChar d) = true := by
  interval_cases d <;> decide

/-- Decimal printing is never empty. -/
theorem natToStr_ne_nil (n : Nat) : natToStr n ≠ [] := by
  rw [natToStr_unfold]
  split
  · simp
  · simp

/-- Decimal printing yields only digit characters. -/
theorem natToStr_digits (n : Nat) : ∀ c ∈ natToStr n, isDigitChar c = true := by
  induction n using Nat.strong_induction_on with
  | _ n ih =>
    rw [natToStr_unfold]
    split
    · next h =>
      intro c hc
      rw [List.mem_singleton.mp hc]
      exact isDigitChar_digitChar h
    · next h =>
      intro c hc
      rcases List.mem_append.mp hc with h1 | h2
      · exact ih (n / 10) (Nat.div_lt_self (by omega) (by omega)) c h1
      · rw [List.mem_singleton.mp h2]
        exact isDigitChar_digitChar (Nat.mod_lt _ (by omega))

/-- Reading a decimal print back gives the printed number. -/
theorem decodeDec_natToStr (n : Nat) : decodeDec (natToStr n) = n := by
  induction n using Nat.strong_induction_on with
  | _ n ih =>
    rw [natToStr_unfold]
    split
    · next h =>
      show 10 * 0 + digitVal (digitChar n) = n
      rw [digitVal_digitChar h]
      omega
    · next h =>
      rw [decodeDec, List.foldl_append]
      show 10 * decodeDec (natToStr (n / 10)) + digitVal (digitChar (n % 10)) = n
      rw [ih (n / 10) (Nat.div_lt_self (by omega) (by omega)),
        digitVal_digitChar (Nat.mod_lt _ (by omega))]
      omega

/-- Numeric parsing by `u16::from_str` inverts decimal printing for values in range. -/
theorem parseU16_natToStr {n : Nat} (h : n ≤ 65535) :
    parseU16 (natToStr n) = some n := by
  have hd := natToStr_digits n
  have hne := natToStr_ne_nil n
  have hsp : stripPlus (natToStr n) = natToStr n := by
    cases hs : natToStr n with
    | nil => rfl
    | cons c t =>
      have hdc : isDigitChar c = true := hd c (by rw [hs]; simp)
      simp [stripPlus, isDigitChar_ne_plus hdc]
  have hall : (natToStr n).all isDigitChar = true := List.all_eq_true.mpr hd
  unfold parseU16
  rw [hsp, if_neg hne, if_pos hall, decodeDec_natToStr, if_pos h]

/-- A non-whitespace character is not the newline. -/
theorem not_ws_ne_newline {c : Char} (h : isRustWs c = false) : c ≠ '\n' :=
  ne_of_not_ws h (by decide)

/-- The encoded dump field is nonempty. -/
theorem dumpStr_ne_nil (b : Bool) : (if b then ['1'] else ['0']) ≠ [] := by
  cases b <;> simp

/-- The encoded dump field is whitespace-free. -/
theorem dumpStr_not_ws (b : Bool) :
    ∀ c ∈ (if b then ['1'] else ['0']), isRustWs c = false := by
  cases b <;> intro c hc <;> rw [List.mem_singleton.mp hc] <;> decide

/-- The decimal print of a number is whitespace-free. -/
theorem natToStr_not_ws (n : Nat) : ∀ c ∈ natToStr n, isRustWs c = false :=
  fun c hc => isDigitChar_not_ws (natToStr_digits n c hc)

/-- Comma-joined options built from whitespace- and comma-free options are
whitespace-free. -/
theorem joined_not_ws {opts : List Str}
    (h : ∀ o ∈ opts, ∀ c ∈ o, isRustWs c = false ∧ c ≠ ',') :
    ∀ c ∈ joinSep ',' opts, isRustWs c = false := by
  intro c hc
  rcases mem_joinSep hc with rfl | ⟨o, ho, hco⟩
  · decide
  · exact (h o ho c hco).1

/-- The first character of an encoded line is the first character of
`fs_spec`. -/
theorem entryLine_head? (e : FsEntry) (hne : e.fs_spec ≠ []) :
    (entryLine e).head? = e.fs_spec.head? := by
  unfold entryLine
  exact List.head?_append_of_ne_nil _ hne

/-- Last element past a cons, when the tail is nonempty. -/
theorem getLast?_cons_of_ne_nil {c : Char} {l : Str} (h : l ≠ []) :
    (c :: l).getLast? = l.getLast? := by
  cases l with
  | nil => cases h rfl
  | cons a t => exact List.getLast?_cons_cons

/-- An encoded line ends with the decimal print of `fsck_order`. -/
theorem entryLine_getLast? (e : FsEntry) :
    (entryLine e).getLast? = (natToStr e.fsck_order).getLast? := by
  unfold entryLine
  rw [List.getLast?_append_of_ne_nil _ (by simp),
    getLast?_cons_of_ne_nil (by simp),
    List.getLast?_append_of_ne_nil _ (by simp),
    getLast?_cons_of_ne_nil (by simp),
    List.getLast?_append_of_ne_nil _ (by simp),
    getLast?_cons_of_ne_nil (by simp),
    List.getLast?_append_of_ne_nil _ (by simp),
    getLast?_cons_of_ne_nil (by simp),
    List.getLast?_append_of_ne_nil _ (by simp),
    getLast?_cons_of_ne_nil (natToStr_ne_nil _)]

/-- An encoded line never ends in a carriage return, so `str::lines` leaves it
intact. -/
theorem stripCR_entryLine (e : FsEntry) : stripCR (entryLine e) = entryLine e := by
  unfold stripCR
  rw [if_neg]
  intro hlast
  rw [entryLine_getLast? e] at hlast
  have hmem : '\r' ∈ natToStr e.fsck_order := by
    obtain ⟨hne, heq⟩ := List.mem_getLast?_eq_getLast (Option.mem_def.mpr hlast)
    rw [heq]
    exact List.getLast_mem hne
  have := natToStr_digits e.fsck_order '\r' hmem
  exact absurd this (by decide)

/-- An encoded line with whitespace-free fields contains no newline, so it is
one line of the written file. -/
theorem entryLine_no_newline {e : FsEntry}
    (h1 : ∀ c ∈ e.fs_spec, isRustWs c = false)
    (h2 : ∀ c ∈ e.mountpoint, isRustWs c = false)
    (h3 : ∀ c ∈ e.vfs_type, isRustWs c = false)
    (h4 : ∀ c ∈ joinSep ',' e.mount_options, isRustWs c = false) :
    '\n' ∉ entryLine e := by
  intro hmem
  unfold entryLine at hmem
  rcases List.mem_append.mp hmem with hx | hmem
  · exact not_ws_ne_newline (h1 _ hx) rfl
  rcases List.mem_cons.mp hmem with hx | hmem
  · exact absurd hx (by decide)
  rcases List.mem_append.mp hmem with hx | hmem
  · exact not_ws_ne_newline (h2 _ hx) rfl
  rcases List.mem_cons.mp hmem with hx | hmem
  · exact absurd hx (by decide)
  rcases List.mem_append.mp hmem with hx | hmem
  · exact not_ws_ne_newline (h3 _ hx) rfl
  rcases List.mem_cons.mp hmem with hx | hmem
  · exact absurd hx (by decide)
  rcases List.mem_append.mp hmem with hx | hmem
  · exact not_ws_ne_newline (h4 _ hx) rfl
  rcases List.mem_cons.mp hmem with hx | hmem
  · exact absurd hx (by decide)
  rcases List.mem_append.mp hmem with hx | hmem
  · exact not_ws_ne_newline (dumpStr_not_ws e.dump _ hx) rfl
  rcases List.mem_cons.mp hmem with hx | hx
  · exact absurd hx (by decide)
  · exact not_ws_ne_newline (natToStr_not_ws _ _ hx) rfl

/-- Tokenizing an encoded line with nonempty whitespace-free fields yields the
six fields. -/
theorem splitWhitespace_entryLine {e : FsEntry}
    (h1 : e.fs_spec ≠ []) (h1w : ∀ c ∈ e.fs_spec, isRustWs c = false)
    (h2 : e.mountpoint ≠ []) (h2w : ∀ c ∈ e.mountpoint, isRustWs c = false)
    (h3 : e.vfs_type ≠ []) (h3w : ∀ c ∈ e.vfs_type, isRustWs c = false)
    (h4 : joinSep ',' e.mount_options ≠ [])
    (h4w : ∀ c ∈ joinSep ',' e.mount_options, isRustWs c = false) :
    splitWhitespace (entryLine e) =
      [e.fs_spec, e.mountpoint, e.vfs_type, joinSep ',' e.mount_options,
       if e.dump then ['1'] else ['0'], natToStr e.fsck_order] := by
  unfold entryLine
  rw [splitWhitespace_word_cons h1 h1w,
    splitWhitespace_word_cons h2 h2w,
    splitWhitespace_word_cons h3 h3w,
    splitWhitespace_word_cons h4 h4w,
    splitWhitespace_word_cons (dumpStr_ne_nil e.dump) (dumpStr_not_ws e.dump),
    splitWhitespace_word (natToStr_ne_nil _) (natToStr_not_ws _)]

/-- The parser decodes an encoded valid entry back to that entry. -/
theorem classifyLine_entryLine {e : FsEntry} (he : ValidEntry e) :
    classifyLine (entryLine e) = .entry e := by
  obtain ⟨⟨h1, h1w⟩, hhash, ⟨h2, h2w⟩, ⟨h3, h3w⟩, hopt, hjoin, hle⟩ := he
  have h4w := joined_not_ws hopt
  have hone : e.mount_options ≠ [] := by
    intro h0; rw [h0] at hjoin; exact hjoin rfl
  have hosep : ∀ o ∈ e.mount_options, ',' ∉ o :=
    fun o ho hc => (hopt o ho ',' hc).2 rfl
  unfold classifyLine
  rw [if_neg (by rw [entryLine_head? e h1]; exact hhash)]
  rw [splitWhitespace_entryLine h1 h1w h2 h2w h3 h3w hjoin h4w]
  show (match parseU16 (natToStr e.fsck_order) with
    | none => LineResult.fatal
    | some fsck =>
      LineResult.entry
        { fs_spec := e.fs_spec, mountpoint := e.mountpoint,
          vfs_type := e.vfs_type,
          mount_options := splitOnChar ',' (joinSep ',' e.mount_options),
          dump := if (if e.dump then ['1'] else ['0']) = ['0'] then false
            else true,
          fsck_order := fsck }) = LineResult.entry e
  rw [parseU16_natToStr hle, splitOnChar_joinSep hone hosep,
    show (if (if e.dump then ['1'] else ['0']) = ['0'] then false else true)
      = e.dump from by cases e.dump <;> decide]

/-- Writing a table of valid entries and parsing the written text recovers the
table. -/
theorem parse_entries_save_fstab {entries : List FsEntry}
    (h : ∀ e ∈ entries, ValidEntry e) :
    parse_entries (save_fstab entries) = .ok entries := by
  induction entries with
  | nil => rfl
  | cons e rest ih =>
    obtain ⟨⟨h1, h1w⟩, hhash, ⟨h2, h2w⟩, ⟨h3, h3w⟩, hopt, hjoin, hle⟩ :=
      h e (by simp)
    unfold parse_entries
    rw [show save_fstab (e :: rest) = entryLine e ++ '\n' :: save_fstab rest
      from rfl]
    rw [rustLines_append (entryLine_no_newline h1w h2w h3w (joined_not_ws hopt))]
    rw [stripCR_entryLine]
    simp only [parseLines]
    rw [classifyLine_entryLine (h e (by simp))]
    show (parseLines (rustLines (save_fstab rest))).map (fun es => e :: es) =
      Except.ok (e :: rest)
    have ih' := ih (fun x hx => h x (by simp [hx]))
    unfold parse_entries at ih'
    rw [ih']
    rfl

/-- C1: Round-trip on values: for every list of entries with valid field
values, parsing the text produced by the table writer yields exactly the same
list, same entries and field values, in the same order. -/
theorem C1_roundtrip_on_values (entries : List FsEntry)
    (h : ∀ e ∈ entries, ValidEntry e) :
    parse_entries (save_fstab entries) = .ok entries :=
  parse_entries_save_fstab h

/-- C1 witness: the round trip evaluated on a concrete two-entry table. -/
theorem C1_roundtrip_on_values_witness :
    parse_entries (save_fstab [entA, entB]) = .ok [entA, entB] :=
  C1_roundtrip_on_values [entA, entB] (by decide)

/-- A line the loop passes over (comment or wrong field count) does not
affect the parse of the other lines. -/
theorem parseLines_skip_middle {l : Str}
    (hl : classifyLine l = .comment ∨ classifyLine l = .skip) :
    ∀ pre post : List Str,
      parseLines (pre ++ l :: post) = parseLines (pre ++ post) := by
  intro pre post
  induction pre with
  | nil =>
    simp only [List.nil_append, parseLines]
    rcases hl with h | h <;> rw [h]
  | cons p ps ih =>
    simp only [List.cons_append, parseLines, List.append_eq]
    rw [ih]

/-- A line with exactly six fields and an unparseable sixth aborts the whole
parse wherever it occurs. -/
theorem parseLines_fatal_middle {l : Str} (hl : classifyLine l = .fatal) :
    ∀ pre post : List Str,
      parseLines (pre ++ l :: post) = .error ParseError.invalidInput := by
  intro pre post
  induction pre with
  | nil =>
    simp only [List.nil_append, parseLines]
    rw [hl]
  | cons p ps ih =>
    simp only [List.cons_append, parseLines, List.append_eq]
    rw [ih]
    cases hc : classifyLine p <;> rfl

/-- Unfolding the loop body on a line with exactly six fields. -/
theorem classifyLine_six {l a b c d ef f : Str}
    (hc : l.head? ≠ some '#') (hf : splitWhitespace l = [a, b, c, d, ef, f]) :
    classifyLine l = (match parseU16 f with
      | none => LineResult.fatal
      | some n =>
        LineResult.entry
          { fs_spec := a, mountpoint := b, vfs_type := c,
            mount_options := splitOnChar ',' d,
            dump := if ef = ['0'] then false else true, fsck_order := n }) := by
  unfold classifyLine
  rw [if_neg hc, hf]

/-- A non-comment line whose token count is not six is classified as a skip. -/
theorem classifyLine_skip {l : Str} (hc : l.head? ≠ some '#')
    (hn : (splitWhitespace l).length ≠ 6) : classifyLine l = .skip := by
  unfold classifyLine
  rw [if_neg hc]
  generalize hsp : splitWhitespace l = parts at hn
  rcases parts with _ | ⟨a, _ | ⟨b, _ | ⟨c, _ | ⟨d, _ | ⟨e, _ | ⟨f, _ | ⟨g, t⟩⟩⟩⟩⟩⟩⟩ <;>
    first
      | rfl
      | simp at hn

/-- C3: Fatal numeric failure: if any non-comment line of the input splits
into exactly six whitespace-separated fields but its sixth field does not
parse as an integer in 0-65535, the entire parse returns the input-format
error and no entries are returned. -/
theorem C3_fatal_numeric (s : Str) (pre post : List Str)
    (l a b c d ef f : Str)
    (hs : rustLines s = pre ++ l :: post)
    (hc : l.head? ≠ some '#')
    (hf : splitWhitespace l = [a, b, c, d, ef, f])
    (hp : parseU16 f = none) :
    parse_entries s = .error ParseError.invalidInput := by
  have hcl : classifyLine l = .fatal := by
    rw [classifyLine_six hc hf, hp]
  unfold parse_entries
  rw [hs]
  exact parseLines_fatal_middle hcl pre post

/-- C3 witness: a bad sixth field on the first line poisons the whole parse
even though the second line is well-formed. -/
theorem C3_fatal_numeric_witness :
    parse_entries ("a b c d 0 xx\nx y z w 0 1\n".toList) =
      .error ParseError.invalidInput :=
  C3_fatal_numeric ("a b c d 0 xx\nx y z w 0 1\n".toList) []
    ["x y z w 0 1".toList] ("a b c d 0 xx".toList)
    ("a".toList) ("b".toList) ("c".toList) ("d".toList) ("0".toList)
    ("xx".toList) (by decide) (by decide) (by decide) (by decide)

/-- C6: Lenient skip: a non-comment line whose whitespace-split field count
is not exactly six (blank lines included, which yield zero fields) is
excluded from the result without any error, parsing continuing with the
remaining lines. -/
theorem C6_lenient_skip (s s' : Str) (pre post : List Str) (l : Str)
    (hs : rustLines s = pre ++ l :: post) (hs' : rustLines s' = pre ++ post)
    (hc : l.head? ≠ some '#') (hn : (splitWhitespace l).length ≠ 6) :
    parse_entries s = parse_entries s' ∧ splitWhitespace ([] : Str) = [] := by
  constructor
  · unfold parse_entries
    rw [hs, hs', parseLines_skip_middle (Or.inr (classifyLine_skip hc hn))]
  · rfl

/-- C6 witness: a three-token line is dropped and the rest still parses. -/
theorem C6_lenient_skip_witness :
    parse_entries ("a b c\nx y z w 0 1\n".toList) =
      parse_entries ("x y z w 0 1\n".toList) ∧
    splitWhitespace ([] : Str) = [] :=
  C6_lenient_skip ("a b c\nx y z w 0 1\n".toList) ("x y z w 0 1\n".toList)
    [] ["x y z w 0 1".toList] ("a b c".toList)
    (by decide) (by decide) (by decide) (by decide)

/-- C7: Field decoding: on a six-field data line the fourth field is split
literally on commas into the options (a comma-free field giving a one-element
sequence, the empty string giving a one-element sequence holding the empty
string), and the fifth field decodes to `false` exactly when it is the
literal `0`. -/
theorem C7_field_decoding :
    (∀ (l a b c d ef f : Str) (n : Nat), l.head? ≠ some '#' →
      splitWhitespace l = [a, b, c, d, ef, f] → parseU16 f = some n →
      classifyLine l = .entry
        { fs_spec := a, mountpoint := b, vfs_type := c,
          mount_options := splitOnChar ',' d,
          dump := if ef = ['0'] then false else true, fsck_order := n }) ∧
    (∀ d : Str, ',' ∉ d → splitOnChar ',' d = [d]) ∧
    (splitOnChar ',' ([] : Str) = [([] : Str)]) ∧
    (∀ ef : Str, ((if ef = ['0'] then false else true) = false ↔ ef = ['0'])) := by
  refine ⟨?_, fun d hd => splitOnChar_not_mem hd, rfl, ?_⟩
  · intro l a b c d ef f n hc hsp hp
    rw [classifyLine_six hc hsp, hp]
  · intro ef
    by_cases h : ef = ['0'] <;> simp [h]

/-- C7 witness: decoding a concrete six-field line. -/
theorem C7_field_decoding_witness :
    classifyLine ("u /m t a,b 1 3".toList) = .entry
      { fs_spec := "u".toList, mountpoint := "/m".toList,
        vfs_type := "t".toList,
        mount_options := splitOnChar ',' ("a,b".toList),
        dump := if ("1".toList : Str) = ['0'] then false else true,
        fsck_order := 3 } :=
  C7_field_decoding.1 ("u /m t a,b 1 3".toList) ("u".toList) ("/m".toList)
    ("t".toList) ("a,b".toList) ("1".toList) ("3".toList) 3
    (by decide) (by decide) (by decide)

/-- A line not opening with the hash is never classified as a comment. -/
theorem classifyLine_ne_comment {l : Str} (hc : l.head? ≠ some '#') :
    classifyLine l ≠ LineResult.comment := by
  intro h
  have hskip : (splitWhitespace l).length ≠ 6 → False := by
    intro hn
    rw [classifyLine_skip hc hn] at h
    cases h
  rcases hsp : splitWhitespace l
    with _ | ⟨a, _ | ⟨b, _ | ⟨c, _ | ⟨d, _ | ⟨e, _ | ⟨f, _ | ⟨g, t⟩⟩⟩⟩⟩⟩⟩
  · exact hskip (by rw [hsp]; simp only [List.length_nil]; omega)
  · exact hskip (by rw [hsp]; simp only [List.length_cons, List.length_nil]; omega)
  · exact hskip (by rw [hsp]; simp only [List.length_cons, List.length_nil]; omega)
  · exact hskip (by rw [hsp]; simp only [List.length_cons, List.length_nil]; omega)
  · exact hskip (by rw [hsp]; simp only [List.length_cons, List.length_nil]; omega)
  · exact hskip (by rw [hsp]; simp only [List.length_cons, List.length_nil]; omega)
  · rw [classifyLine_six hc hsp] at h
    rcases hparse : parseU16 f with _ | n <;> rw [hparse] at h <;> cases h
  · exact hskip (by rw [hsp]; simp only [List.length_cons, List.length_nil]; omega)

/-- C8: Comment classification: a line is skipped as a comment exactly when
its first character is a literal hash (leading whitespace is not stripped),
and such a line is always excluded from the result whatever its token
count. -/
theorem C8_comment_classification :
    (∀ l : Str, classifyLine l = .comment ↔ l.head? = some '#') ∧
    (∀ (s s' : Str) (pre post : List Str) (l : Str),
      rustLines s = pre ++ l :: post → rustLines s' = pre ++ post →
      l.head? = some '#' → parse_entries s = parse_entries s') := by
  constructor
  · intro l
    constructor
    · intro h
      by_contra hc
      exact classifyLine_ne_comment hc h
    · intro h
      unfold classifyLine
      rw [if_pos h]
  · intro s s' pre post l hs hs' hc
    unfold parse_entries
    rw [hs, hs',
      parseLines_skip_middle (Or.inl (by unfold classifyLine; rw [if_pos hc]))]

/-- C8 witness: a hash-prefixed line with six tokens is still dropped, and a
line with leading whitespace before the hash is not a comment. -/
theorem C8_comment_classification_witness :
    (classifyLine ("# c d e f g h".toList) = .comment ↔
      ("# c d e f g h".toList : Str).head? = some '#') ∧
    parse_entries ("# c d e f g h\nx y z w 0 1\n".toList) =
      parse_entries ("x y z w 0 1\n".toList) ∧
    ¬ classifyLine (" # hello".toList) = .comment :=
  ⟨C8_comment_classification.1 ("# c d e f g h".toList),
   C8_comment_classification.2 ("# c d e f g h\nx y z w 0 1\n".toList)
     ("x y z w 0 1\n".toList) [] ["x y z w 0 1".toList]
     ("# c d e f g h".toList) (by decide) (by decide) (by decide),
   fun h => by
     have := (C8_comment_classification.1 (" # hello".toList)).mp h
     exact absurd this (by decide)⟩

/-- Searching with `position` finds nothing when the predicate holds nowhere. -/
theorem findIdx?_none_of_all {α : Type} {p : α → Bool} {l : List α}
    (h : ∀ x ∈ l, p x = false) : ∀ i, List.findIdx? p l i = none := by
  induction l with
  | nil => intro i; rfl
  | cons a t ih =>
    intro i
    rw [List.findIdx?_cons, if_neg (by rw [h a (List.mem_cons_self a t)]; simp)]
    exact ih (fun x hx => h x (List.mem_cons_of_mem a hx)) (i + 1)

/-- Searching with `position` finds the first index at which the predicate holds. -/
theorem findIdx?_append_first {α : Type} {p : α → Bool} {t1 : List α}
    {e : α} (t2 : List α) (h1 : ∀ x ∈ t1, p x = false) (he : p e = true) :
    ∀ i, List.findIdx? p (t1 ++ e :: t2) i = some (t1.length + i) := by
  induction t1 with
  | nil =>
    intro i
    rw [List.nil_append, List.findIdx?_cons, if_pos he]
    simp
  | cons a t ih =>
    intro i
    rw [List.cons_append, List.findIdx?_cons,
      if_neg (by rw [h1 a (List.mem_cons_self a t)]; simp),
      ih (fun x hx => h1 x (List.mem_cons_of_mem a hx)) (i + 1)]
    congr 1
    simp only [List.length_cons]
    omega

/-- The total `findIdx` likewise returns the first matching index. -/
theorem findIdx_append_first {α : Type} {p : α → Bool} {t1 : List α}
    {e : α} (t2 : List α) (h1 : ∀ x ∈ t1, p x = false) (he : p e = true) :
    List.findIdx p (t1 ++ e :: t2) = t1.length := by
  induction t1 with
  | nil =>
    rw [List.nil_append, List.findIdx_cons, he]
    rfl
  | cons a t ih =>
    rw [List.cons_append, List.findIdx_cons, h1 a (List.mem_cons_self a t)]
    show List.findIdx p (t ++ e :: t2) + 1 = (a :: t).length
    rw [ih (fun x hx => h1 x (List.mem_cons_of_mem a hx))]
    rfl

/-- Removal by `Vec::remove` at the index of a distinguished element. -/
theorem eraseIdx_append_length {α : Type} (t1 : List α) (e : α) (t2 : List α) :
    (t1 ++ e :: t2).eraseIdx t1.length = t1 ++ t2 := by
  induction t1 with
  | nil => rfl
  | cons a t ih =>
    show a :: (t ++ e :: t2).eraseIdx t.length = a :: (t ++ t2)
    rw [ih]

/-- A member splits its list at its first occurrence. -/
theorem exists_first_occurrence {α : Type} [DecidableEq α] {e : α}
    {t : List α} (h : e ∈ t) : ∃ t1 t2, t = t1 ++ e :: t2 ∧ e ∉ t1 := by
  induction t with
  | nil => cases h
  | cons a t ih =>
    by_cases hae : e = a
    · exact ⟨[], t, by rw [hae]; rfl, List.not_mem_nil e⟩
    · have hm : e ∈ t := by
        rcases List.mem_cons.mp h with h1 | h2
        · exact absurd h1 hae
        · exact h2
      obtain ⟨t1, t2, rfl, hni⟩ := ih hm
      refine ⟨a :: t1, t2, rfl, ?_⟩
      intro hmem
      rcases List.mem_cons.mp hmem with h1 | h2
      · exact hae h1
      · exact hni h2

/-- Running `add_entry` on a table without a structurally equal entry appends. -/
theorem add_entry_not_mem {t : List FsEntry} {e : FsEntry} (h : e ∉ t) :
    add_entry t e = ⟨t ++ [e], true, 1⟩ := by
  unfold add_entry
  rw [findIdx?_none_of_all (p := fun x => decide (x = e))
    (fun x hx => decide_eq_false (fun (hxe : x = e) => h (hxe ▸ hx))) 0]

/-- Running `add_entry` on a table holding a structurally equal entry removes its
first occurrence and appends. -/
theorem add_entry_mem {t1 t2 : List FsEntry} {e : FsEntry} (h : e ∉ t1) :
    add_entry (t1 ++ e :: t2) e = ⟨t1 ++ t2 ++ [e], false, 1⟩ := by
  unfold add_entry
  rw [findIdx?_append_first (p := fun x => decide (x = e)) t2
    (fun x hx => decide_eq_false (fun (hxe : x = e) => h (hxe ▸ hx)))
    (decide_eq_true rfl) 0]
  show OpResult.mk ((t1 ++ e :: t2).eraseIdx (t1.length + 0) ++ [e]) false 1 = _
  rw [Nat.add_zero, eraseIdx_append_length]

/-- C2: Upsert keys on whole-record structural equality: `add_entry` removes
an existing entry only when it equals the new entry in all six fields,
appends the new entry at the end, and returns `true` iff no structurally
equal entry existed; an existing entry sharing only `fs_spec` but differing
in any other field is not removed and coexists with the new one. -/
theorem C2_upsert_whole_record (t : List FsEntry) (e : FsEntry) :
    ((add_entry t e).ret = true ↔ e ∉ t) ∧
    (add_entry t e).table.getLast? = some e ∧
    (∀ x : FsEntry, x ≠ e → (add_entry t e).table.count x = t.count x) ∧
    (∀ x ∈ t, x ≠ e → x ∈ (add_entry t e).table) ∧
    (e ∉ t → (add_entry t e).table = t ++ [e]) := by
  by_cases hm : e ∈ t
  · obtain ⟨t1, t2, rfl, hni⟩ := exists_first_occurrence hm
    rw [add_entry_mem hni]
    refine ⟨?_, List.getLast?_concat _, ?_, ?_, ?_⟩
    · simp [hm]
    · intro x hx
      have hbx : (e == x) = false := beq_eq_false_iff_ne.mpr (Ne.symm hx)
      simp [List.count_append, List.count_cons, hbx]
    · intro x hxm hxe
      rcases List.mem_append.mp hxm with h1 | h2
      · simp [h1]
      · rcases List.mem_cons.mp h2 with rfl | h3
        · exact absurd rfl hxe
        · simp [h3]
    · intro hni2
      exact absurd (List.mem_append.mpr (Or.inr (List.mem_cons_self e t2))) hni2
  · rw [add_entry_not_mem hm]
    refine ⟨?_, List.getLast?_concat _, ?_, ?_, ?_⟩
    · simp [hm]
    · intro x hx
      have hbx : (e == x) = false := beq_eq_false_iff_ne.mpr (Ne.symm hx)
      simp [List.count_append, List.count_cons, hbx]
    · intro x hxm hxe
      simp [hxm]
    · intro h2
      rfl

/-- C2 witness: adding a record sharing only `fs_spec` with the resident
entry inserts it, keeps the old record, and both coexist. -/
theorem C2_upsert_whole_record_witness :
    ((add_entry [entA] entA2).ret = true ↔ entA2 ∉ [entA]) ∧
    (add_entry [entA] entA2).table.count entA = ([entA] : List FsEntry).count entA ∧
    entA ∈ (add_entry [entA] entA2).table ∧
    (add_entry [entA] entA2).table = [entA] ++ [entA2] :=
  ⟨(C2_upsert_whole_record [entA] entA2).1,
   (C2_upsert_whole_record [entA] entA2).2.2.1 entA (by decide),
   (C2_upsert_whole_record [entA] entA2).2.2.2.1 entA (by decide) (by decide),
   (C2_upsert_whole_record [entA] entA2).2.2.2.2 (by decide)⟩

/-- C9: after `add_entry` the last element of the table is the new entry, and
only the first structurally equal occurrence is removed, so later duplicates
survive. -/
theorem C9_last_and_first_occurrence (t : List FsEntry) (e : FsEntry) :
    (add_entry t e).table.getLast? = some e ∧
    (∀ t1 t2, t = t1 ++ e :: t2 → e ∉ t1 →
      (add_entry t e).table = t1 ++ t2 ++ [e]) := by
  constructor
  · by_cases hm : e ∈ t
    · obtain ⟨t1, t2, rfl, hni⟩ := exists_first_occurrence hm
      rw [add_entry_mem hni]
      exact List.getLast?_concat _
    · rw [add_entry_not_mem hm]
      exact List.getLast?_concat _
  · intro t1 t2 ht hni
    subst ht
    rw [add_entry_mem hni]

/-- C9 witness: on a table holding the entry twice, only the first copy is
removed and the entry lands at the end. -/
theorem C9_last_and_first_occurrence_witness :
    (add_entry [entA, entB, entA] entA).table.getLast? = some entA ∧
    (add_entry [entA, entB, entA] entA).table = [] ++ [entB, entA] ++ [entA] :=
  ⟨(C9_last_and_first_occurrence [entA, entB, entA] entA).1,
   (C9_last_and_first_occurrence [entA, entB, entA] entA).2 [] [entB, entA]
     rfl (List.not_mem_nil entA)⟩

/-- C4: `remove_entry` removes exactly the first entry whose `fs_spec` equals
the spec, returns `true`, and rewrites the store once; with no match it
returns `false`, leaves the table unchanged, and performs no write. -/
theorem C4_remove_entry_semantics (t : List FsEntry) (s : Str) :
    (∀ t1 t2 x, t = t1 ++ x :: t2 → (∀ y ∈ t1, y.fs_spec ≠ s) →
      x.fs_spec = s → remove_entry t s = ⟨t1 ++ t2, true, 1⟩) ∧
    ((∀ x ∈ t, x.fs_spec ≠ s) → remove_entry t s = ⟨t, false, 0⟩) := by
  constructor
  · intro t1 t2 x ht hpre hx
    subst ht
    unfold remove_entry
    rw [findIdx?_append_first (p := fun y => decide (y.fs_spec = s)) t2
      (fun y hy => decide_eq_false (hpre y hy)) (decide_eq_true hx) 0]
    show OpResult.mk ((t1 ++ x :: t2).eraseIdx (t1.length + 0)) true 1 = _
    rw [Nat.add_zero, eraseIdx_append_length]
  · intro hall
    unfold remove_entry
    rw [findIdx?_none_of_all (p := fun y => decide (y.fs_spec = s))
      (fun y hy => decide_eq_false (hall y hy)) 0]

/-- C4 witness: removing a present spec deletes its first holder with one
write; removing an absent spec changes nothing and writes nothing. -/
theorem C4_remove_entry_semantics_witness :
    remove_entry [entA, entB] entB.fs_spec = ⟨[entA] ++ [], true, 1⟩ ∧
    remove_entry [entA] ("nomatch".toList) = ⟨[entA], false, 0⟩ :=
  ⟨(C4_remove_entry_semantics [entA, entB] entB.fs_spec).1 [entA] [] entB rfl
     (by decide) rfl,
   (C4_remove_entry_semantics [entA] ("nomatch".toList)).2 (by decide)⟩

/-- One bulk-upsert step coincides with the table transformation of
`add_entry`. -/
theorem addEntriesStep_eq (acc : List FsEntry) (n : FsEntry) :
    addEntriesStep acc n = (add_entry acc n).table := by
  by_cases hm : n ∈ acc
  · obtain ⟨t1, t2, rfl, hni⟩ := exists_first_occurrence hm
    rw [add_entry_mem hni]
    unfold addEntriesStep
    rw [if_pos hm,
      findIdx_append_first (p := fun x => decide (x = n)) t2
        (fun x hx => decide_eq_false (fun (hxe : x = n) => hni (hxe ▸ hx)))
        (decide_eq_true rfl),
      eraseIdx_append_length]
  · rw [add_entry_not_mem hm]
    unfold addEntriesStep
    rw [if_neg hm]

/-- C5: Bulk upsert equivalence: `add_entries [e1, e2]` produces the same
final table as `add_entry e1` followed by `add_entry e2`, the only difference
being one backing-store write instead of two. -/
theorem C5_bulk_upsert_equivalence (t : List FsEntry) (e1 e2 : FsEntry) :
    (add_entries t [e1, e2]).table =
      (add_entry (add_entry t e1).table e2).table ∧
    (add_entries t [e1, e2]).writes = 1 ∧
    (add_entry t e1).writes + (add_entry (add_entry t e1).table e2).writes = 2 := by
  have hw : ∀ (tb : List FsEntry) (e : FsEntry), (add_entry tb e).writes = 1 := by
    intro tb e
    unfold add_entry
    cases h : List.findIdx? (fun x => decide (x = e)) tb 0 <;> rfl
  refine ⟨?_, rfl, ?_⟩
  · show addEntriesStep (addEntriesStep t e1) e2 =
      (add_entry (add_entry t e1).table e2).table
    rw [addEntriesStep_eq, addEntriesStep_eq]
  · rw [hw, hw]

/-- C10 counterexample: for an entry with empty options whose `fs_spec`
contains a space, the written line splits into six fields again and
re-parsing yields a (different) entry rather than the empty list. -/
theorem C10_counterexample :
    entSpaced.mount_options = [] ∧
    parse_entries (save_fstab [entSpaced]) ≠ .ok [] :=
  ⟨rfl, by decide⟩

/-- C10 (amended): for every entry whose `mount_options` is empty and whose
string fields are nonempty whitespace-free tokens, the writer emits a line
with an empty options column, which splits into only five fields, so
re-parsing the written output drops the entry entirely. -/
theorem C10_empty_options_dropped (e : FsEntry)
    (h4 : e.mount_options = [])
    (h1 : e.fs_spec ≠ []) (h1w : ∀ c ∈ e.fs_spec, isRustWs c = false)
    (h2 : e.mountpoint ≠ []) (h2w : ∀ c ∈ e.mountpoint, isRustWs c = false)
    (h3 : e.vfs_type ≠ []) (h3w : ∀ c ∈ e.vfs_type, isRustWs c = false) :
    splitWhitespace (entryLine e) =
      [e.fs_spec, e.mountpoint, e.vfs_type,
        if e.dump then ['1'] else ['0'], natToStr e.fsck_order] ∧
    parse_entries (save_fstab [e]) = .ok [] := by
  have hjoin : joinSep ',' e.mount_options = [] := by rw [h4]; rfl
  have hsplit : splitWhitespace (entryLine e) = [e.fs_spec, e.mountpoint,
      e.vfs_type, if e.dump then ['1'] else ['0'], natToStr e.fsck_order] := by
    unfold entryLine
    rw [hjoin, List.nil_append]
    rw [splitWhitespace_word_cons h1 h1w, splitWhitespace_word_cons h2 h2w,
      splitWhitespace_word_cons h3 h3w,
      splitWhitespace_ws_cons (by decide),
      splitWhitespace_word_cons (dumpStr_ne_nil e.dump) (dumpStr_not_ws e.dump),
      splitWhitespace_word (natToStr_ne_nil _) (natToStr_not_ws _)]
  refine ⟨hsplit, ?_⟩
  have hnl : '\n' ∉ entryLine e :=
    entryLine_no_newline h1w h2w h3w (by rw [hjoin]; intro c hc; cases hc)
  unfold parse_entries
  rw [show save_fstab [e] = entryLine e ++ '\n' :: ([] : Str) from rfl,
    rustLines_append hnl, stripCR_entryLine]
  show parseLines [entryLine e] = .ok []
  simp only [parseLines]
  by_cases hh : (entryLine e).head? = some '#'
  · rw [show classifyLine (entryLine e) = LineResult.comment from by
      unfold classifyLine; rw [if_pos hh]]
  · rw [classifyLine_skip hh
      (by rw [hsplit]; simp only [List.length_cons, List.length_nil]; omega)]

/-- C10 witness: the amended statement evaluated on a concrete entry with
empty options. -/
theorem C10_empty_options_dropped_witness :
    splitWhitespace (entryLine entC) =
      [entC.fs_spec, entC.mountpoint, entC.vfs_type,
        if entC.dump then ['1'] else ['0'], natToStr entC.fsck_order] ∧
    parse_entries (save_fstab [entC]) = .ok [] :=
  C10_empty_options_dropped entC rfl (by decide) (by decide) (by decide)
    (by decide) (by decide) (by decide)

end Fstab
